import Mathlib

/-!
# Verification of the ai_code_agent client core

Shallow embedding of the non-trivial client logic of the repository:

* the path-tree builder `buildTreeData` of the CodeMap page
  (`src/frontend/src/pages/RequirementAnalysis.js`, lines 231-261),
* the polling / data-loading logic of the AgentWorkflow page
  (`src/frontend/src/pages/AgentWorkflow.js`, lines 18-40),
* the gated polling of the CodeMap page (same file, lines 202-229), and
* the dashboard status statistics (`loadProjects`, Dashboard page).

JavaScript objects keyed by path segments are modelled as lists of
`TreeNode` looked up by `title` (string-keyed JS objects preserve
insertion order, and the builder only inserts a key when it is absent, so
titles at one level are distinct); `children: {}` of the source
corresponds to `children = []` here.  The `icon` field of the source
nodes is pure presentation and carries no information beyond
`idx === parts.length - 1`, which is the `isFile` field; it is omitted.
`convertToArray` of the source only changes representation (object to
array, `{}` to `undefined`) and does not alter keys, order, flags,
payloads or structure, so the forest before conversion is the model of
the builder's output.
-/

namespace AiCodeAgent

/-- One record of the `codeMaps` collection fetched by the CodeMap page:
its `file_path` together with the rest of the record, which the builder
treats as an opaque payload (it is stored whole into `data`). -/
structure CodeMap where
  file_path : String
  payload : Nat
deriving DecidableEq

/-- A node of the tree produced by `buildTreeData`: the object literal
created at `RequirementAnalysis.js:240-247`, with `children` as an
insertion-ordered list keyed by `title`. -/
inductive TreeNode : Type where
  | mk (key : String) (title : String) (isFile : Bool)
       (data : Option CodeMap) (children : List TreeNode)

def TreeNode.key : TreeNode → String
  | .mk k _ _ _ _ => k

def TreeNode.title : TreeNode → String
  | .mk _ t _ _ _ => t

def TreeNode.isFile : TreeNode → Bool
  | .mk _ _ b _ _ => b

def TreeNode.data : TreeNode → Option CodeMap
  | .mk _ _ _ d _ => d

def TreeNode.children : TreeNode → List TreeNode
  | .mk _ _ _ _ c => c

/-- Helper for `splitPath`, working on the character list. -/
def splitChars : List Char → List (List Char)
  | [] => [[]]
  | c :: rest =>
    if c = '/' then [] :: splitChars rest
    else
      match splitChars rest with
      | [] => [[c]]
      | s :: ss => (c :: s) :: ss

/-- JavaScript `path.split('/')` for the single-character separator `/`:
`""` splits to `[""]`, and consecutive separators produce empty
segments (`"a//b"` splits to `["a", "", "b"]`). -/
def splitPath (path : String) : List String :=
  (splitChars path.data).map (fun cs => String.mk cs)

/-- JS object lookup `current[part]` on a children collection. -/
def findNode (part : String) (f : List TreeNode) : Option TreeNode :=
  f.find? (fun n => n.title == part)

/-- Replace the children of the (first, hence only) node titled `part`,
leaving every other field and every other node unchanged.  This models
mutating `current[part].children` in place. -/
def setChildren (part : String) (cs : List TreeNode) :
    List TreeNode → List TreeNode
  | [] => []
  | n :: rest =>
    if n.title = part then .mk n.key n.title n.isFile n.data cs :: rest
    else n :: setChildren part cs rest

/-- The `parts.forEach((part, idx) => ...)` loop of `buildTreeData` for
one record `cm`, expressed recursively: at each segment, if no node with
that title exists it is created (a fresh key is appended at the end of
the object, i.e. of the list) with `isFile`/`data` decided by whether
this is the last segment; then the walk descends into that node's
children.  An existing node's `key`, `isFile` and `data` are never
touched. -/
def insertParts (cm : CodeMap) : List String → Nat → List TreeNode →
    List TreeNode
  | [], _, f => f
  | part :: rest, idx, f =>
    match findNode part f with
    | none =>
      f ++ [TreeNode.mk (cm.file_path ++ toString idx) part rest.isEmpty
             (if rest.isEmpty then some cm else none)
             (insertParts cm rest (idx + 1) [])]
    | some n => setChildren part (insertParts cm rest (idx + 1) n.children) f

/-- `buildTreeData` of the CodeMap page: fold every record of `codeMaps`
into the forest, splitting its `file_path` on `/`. -/
def buildTreeData (codeMaps : List CodeMap) : List TreeNode :=
  codeMaps.foldl (fun t cm => insertParts cm (splitPath cm.file_path) 0 t) []

/-! ## The AgentWorkflow polling loop

`AgentWorkflow.js` mounts an effect that calls `loadData()` immediately
and installs `setInterval(loadData, 3000)`; the cleanup clears the
interval.  `loadData` awaits two requests (`Promise.all`) and then runs
`setRequirement(...)`/`setTasks(...)` unconditionally — there is no
sequence number, staleness check or cancellation flag; on failure it
runs `console.error` and leaves the schedule alone; `finally` it runs
`setLoading(false)`.  The model below is a trace semantics over these
events: the fetched bodies are opaque numbers, `console.error` is the
`errors` counter, and every in-flight fetch is identified by the order
in which it was issued. -/

/-- Component state of the AgentWorkflow page together with the
scheduler facts the trace semantics needs: which fetches are in flight
(`pending`), how many were ever issued (`nextId`), and whether the
interval installed by the effect is still scheduled. -/
structure AWState where
  requirement : Option Nat
  tasks : Option Nat
  loading : Bool
  intervalActive : Bool
  nextId : Nat
  pending : List Nat
deriving DecidableEq

/-- `console.error` count is tracked separately so a claim can refer to
"the failure was reported". -/
structure AWFull where
  st : AWState
  errors : Nat
deriving DecidableEq

/-- Events a single AgentWorkflow effect instance can experience:
an interval tick (which calls `loadData`, issuing a fetch, if the
interval is still scheduled), the resolution of the `Promise.all` of
fetch `id` with bodies `req`/`tasks`, its rejection, and the effect
cleanup (`clearInterval`). -/
inductive AWEvent : Type where
  | tick
  | fetchResolve (id req tasks : Nat)
  | fetchReject (id : Nat)
  | cleanup
deriving DecidableEq

/-- Calling `loadData()`: issue one fetch, tagged with the next id. -/
def issueFetch (s : AWFull) : AWFull :=
  { s with st := { s.st with nextId := s.st.nextId + 1,
                             pending := s.st.pending ++ [s.st.nextId] } }

/-- One step of the AgentWorkflow trace semantics.  A resolving fetch
applies `setRequirement`/`setTasks`/`setLoading(false)` unconditionally,
exactly as `loadData` does — also when the interval has been cleared, and
also when a later-issued fetch already resolved.  A rejection runs
`console.error` and `setLoading(false)` only.  A tick calls `loadData`
iff the interval is still scheduled; `cleanup` clears the interval and
nothing else. -/
def AWStep (s : AWFull) : AWEvent → AWFull
  | .tick => if s.st.intervalActive then issueFetch s else s
  | .fetchResolve id req tasks =>
    { s with st := { s.st with requirement := some req, tasks := some tasks,
                               loading := false,
                               pending := s.st.pending.erase id } }
  | .fetchReject id =>
    { s with st := { s.st with loading := false,
                               pending := s.st.pending.erase id },
             errors := s.errors + 1 }
  | .cleanup => { s with st := { s.st with intervalActive := false } }

/-- State immediately after the effect mounts: `loading` starts `true`
(`useState(true)`), the interval is installed, and `loadData()` has been
called once (fetch `0` is in flight). -/
def AWInit : AWFull :=
  issueFetch { st := { requirement := none, tasks := none, loading := true,
                       intervalActive := true, nextId := 0, pending := [] },
               errors := 0 }

/-- Run a trace of events from the mounted state. -/
def runAW (events : List AWEvent) : AWFull :=
  events.foldl AWStep AWInit

/-- Feasibility of a trace from state `s`: a tick only fires while the
interval is scheduled, and only an in-flight fetch can settle (each
settles once: settling removes it from `pending`). -/
def AWWf (s : AWFull) : List AWEvent → Bool
  | [] => true
  | e :: rest =>
    (match e with
     | .tick => s.st.intervalActive
     | .fetchResolve id _ _ => s.st.pending.contains id
     | .fetchReject id => s.st.pending.contains id
     | .cleanup => true)
    && AWWf (AWStep s e) rest

/-- Feasible traces of one mounted AgentWorkflow effect. -/
def wellFormedAW (events : List AWEvent) : Bool :=
  AWWf AWInit events

/-- Accumulator step for `lastResolveData`. -/
def lrStep (acc : Option (Nat × Nat)) : AWEvent → Option (Nat × Nat)
  | .fetchResolve _ req tasks => some (req, tasks)
  | _ => acc

/-- The bodies carried by the last `fetchResolve` of a trace, if any:
what the snapshot ends up being under last-write-wins. -/
def lastResolveData (events : List AWEvent) : Option (Nat × Nat) :=
  events.foldl lrStep none

/-! ## The CodeMap polling loop

`RequirementAnalysis.js` (CodeMap component) mounts an effect with
dependency `[projectId]` that calls `loadData()` immediately and installs
`setInterval(() => { if (project?.status === 'analyzing') loadData(); },
5000)`.  The callback closes over the `project` state value of the render
in which the effect ran — `null` on mount, and never refreshed while
`projectId` is unchanged — so the guard reads that captured value, not
the fetched snapshot.  The interval itself is cleared only by the
cleanup; a tick whose guard is false simply skips `loadData`.  Fetching
is modelled atomically here (the staleness analysis lives in the
AgentWorkflow model). -/

/-- The gate of the CodeMap interval callback:
`project?.status === 'analyzing'` evaluated on the closure-captured
project value. -/
def cmGate (captured : Option String) : Bool :=
  captured == some "analyzing"

/-- CodeMap polling state: the status of the last fetched project
snapshot, how many fetches `loadData` has made, how many interval ticks
have fired, and whether the interval is still scheduled. -/
structure CMState where
  projectStatus : Option String
  fetches : Nat
  ticksFired : Nat
  intervalActive : Bool
deriving DecidableEq

/-- Events of one mounted CodeMap effect: an interval tick (carrying the
status the fetch would return, used only if the gate lets `loadData`
run) and the cleanup. -/
inductive CMEvent : Type where
  | tick (result : String)
  | cleanup
deriving DecidableEq

/-- One step of the CodeMap trace semantics: a tick fires only while the
interval is scheduled, increments the tick count, and calls `loadData`
iff `cmGate captured` holds; `cleanup` clears the interval. -/
def CMStep (captured : Option String) (s : CMState) : CMEvent → CMState
  | .tick result =>
    if s.intervalActive then
      if cmGate captured then
        { s with fetches := s.fetches + 1, projectStatus := some result,
                 ticksFired := s.ticksFired + 1 }
      else { s with ticksFired := s.ticksFired + 1 }
    else s
  | .cleanup => { s with intervalActive := false }

/-- State right after the CodeMap effect mounts: the immediate
`loadData()` has returned a project with status `firstResult`, and the
interval is scheduled. -/
def CMInit (firstResult : String) : CMState :=
  { projectStatus := some firstResult, fetches := 1, ticksFired := 0,
    intervalActive := true }

/-- Run a CodeMap trace; on mount the captured project value is `none`
(`project` is `null` in the render that installed the effect). -/
def runCM (firstResult : String) (events : List CMEvent) : CMState :=
  events.foldl (CMStep none) (CMInit firstResult)

/-! ## The Dashboard status statistics -/

/-- A project record as the Dashboard statistics see it: only its
`status` matters. -/
structure Project where
  status : String
deriving DecidableEq

/-- The `stats` object computed by `loadProjects`. -/
structure Stats where
  total : Nat
  completed : Nat
  analyzing : Nat
  pending : Nat
deriving DecidableEq

/-- The statistics computation of `loadProjects` (Dashboard page,
lines 34-41): `total` is the record count and the three status buckets
are filters on exact status equality.  There is no further bucket. -/
def computeStats (projectsData : List Project) : Stats :=
  { total := projectsData.length,
    completed := (projectsData.filter (fun p => p.status == "completed")).length,
    analyzing := (projectsData.filter (fun p => p.status == "analyzing")).length,
    pending := (projectsData.filter (fun p => p.status == "pending")).length }

/-! ## Lemmas about the tree builder -/

/-- `Subnode s t`: `s` is `t` itself or a node somewhere below `t`. -/
inductive Subnode : TreeNode → TreeNode → Prop where
  | refl (t : TreeNode) : Subnode t t
  | child {s c t : TreeNode} (hc : c ∈ t.children) (hs : Subnode s c) : Subnode s t

/-- Per-node invariant maintained by the builder: the payload is stored
iff the node was created at the last segment of its record, a node
created as a directory has at least one child, and the children of a
node have pairwise distinct titles (they model a JS object keyed by
segment name). -/
def nodeInv (n : TreeNode) : Prop :=
  n.data.isSome = n.isFile ∧ (n.isFile = false → n.children ≠ []) ∧
  (n.children.map TreeNode.title).Nodup

/-- Forest-level invariant: distinct titles at the top level, and
`nodeInv` at every node of every tree. -/
def forestInv (f : List TreeNode) : Prop :=
  (f.map TreeNode.title).Nodup ∧ ∀ r ∈ f, ∀ s, Subnode s r → nodeInv s

theorem title_mk (k t : String) (b : Bool) (d : Option CodeMap)
    (c : List TreeNode) : (TreeNode.mk k t b d c).title = t := rfl

theorem TreeNode.eta (n : TreeNode) :
    TreeNode.mk n.key n.title n.isFile n.data n.children = n := by
  cases n
  rfl

theorem setChildren_map_title (part : String) (cs : List TreeNode) :
    ∀ f : List TreeNode,
      (setChildren part cs f).map TreeNode.title = f.map TreeNode.title := by
  intro f
  induction f with
  | nil => rfl
  | cons n rest ih =>
    rw [setChildren]
    split
    · simp [title_mk, TreeNode.title]
    · simp [ih]

theorem setChildren_length (part : String) (cs : List TreeNode)
    (f : List TreeNode) : (setChildren part cs f).length = f.length := by
  have := congrArg List.length (setChildren_map_title part cs f)
  simpa using this

theorem mem_setChildren {part : String} {cs : List TreeNode}
    {f : List TreeNode} {m : TreeNode} (hm : m ∈ setChildren part cs f) :
    m ∈ f ∨ ∃ n ∈ f, n.title = part
      ∧ m = TreeNode.mk n.key n.title n.isFile n.data cs := by
  induction f with
  | nil => simp [setChildren] at hm
  | cons n rest ih =>
    rw [setChildren] at hm
    by_cases h : n.title = part
    · rw [if_pos h] at hm
      rcases List.mem_cons.mp hm with rfl | hm
      · exact Or.inr ⟨n, List.mem_cons_self _ _, h, rfl⟩
      · exact Or.inl (List.mem_cons_of_mem _ hm)
    · rw [if_neg h] at hm
      rcases List.mem_cons.mp hm with rfl | hm
      · exact Or.inl (List.mem_cons_self _ _)
      · rcases ih hm with h' | ⟨n', hn', ht, he⟩
        · exact Or.inl (List.mem_cons_of_mem _ h')
        · exact Or.inr ⟨n', List.mem_cons_of_mem _ hn', ht, he⟩

theorem findNode_eq_none {part : String} {f : List TreeNode}
    (h : findNode part f = none) : ∀ n ∈ f, n.title ≠ part := by
  intro n hn
  have := List.find?_eq_none.mp h n hn
  simpa using this

theorem findNode_eq_some {part : String} {f : List TreeNode} {n : TreeNode}
    (h : findNode part f = some n) : n ∈ f ∧ n.title = part := by
  refine ⟨List.mem_of_find?_eq_some h, ?_⟩
  have := List.find?_some h
  simpa using this

theorem insertParts_nil (cm : CodeMap) (idx : Nat) (f : List TreeNode) :
    insertParts cm [] idx f = f := rfl

theorem insertParts_ne_nil (cm : CodeMap) {parts : List String} (idx : Nat)
    (f : List TreeNode) (h : parts ≠ []) : insertParts cm parts idx f ≠ [] := by
  cases parts with
  | nil => exact absurd rfl h
  | cons part rest =>
    rw [insertParts]
    cases hf : findNode part f with
    | none => simp
    | some n =>
      intro hnil
      have hlen := congrArg List.length hnil
      rw [setChildren_length] at hlen
      have hmem := (findNode_eq_some hf).1
      rcases f with _ | ⟨m, f'⟩
      · simp at hmem
      · simp at hlen

/-- The builder's insertion step preserves the forest invariant. -/
theorem forestInv_insertParts (cm : CodeMap) :
    ∀ (parts : List String) (idx : Nat) (f : List TreeNode),
      forestInv f → forestInv (insertParts cm parts idx f) := by
  intro parts
  induction parts with
  | nil => intro idx f h; exact h
  | cons part rest ih =>
    intro idx f h
    rw [insertParts]
    cases hf : findNode part f with
    | none =>
      have hCinv : forestInv (insertParts cm rest (idx + 1) []) :=
        ih (idx + 1) [] ⟨by simp, by simp⟩
      constructor
      · rw [List.map_append]
        have hnotin : part ∉ f.map TreeNode.title := by
          intro hmem
          rcases List.mem_map.mp hmem with ⟨n, hn, ht⟩
          exact findNode_eq_none hf n hn ht
        simp only [List.map_cons, List.map_nil, title_mk]
        exact List.Nodup.append h.1 (List.nodup_singleton part)
          (by simpa [List.disjoint_right] using hnotin)
      · intro r hr s hs
        rcases List.mem_append.mp hr with hrf | hrN
        · exact h.2 r hrf s hs
        · have hrN' : r = TreeNode.mk (cm.file_path ++ toString idx) part
              rest.isEmpty (if rest.isEmpty then some cm else none)
              (insertParts cm rest (idx + 1) []) := by simpa using hrN
          subst hrN'
          cases hs with
          | refl =>
            refine ⟨?_, ?_, ?_⟩
            · cases rest <;> simp [TreeNode.data, TreeNode.isFile]
            · intro hff
              cases rest with
              | nil => simp [TreeNode.isFile] at hff
              | cons a b =>
                simp only [TreeNode.children]
                exact insertParts_ne_nil cm (idx + 1) [] (by simp)
            · simpa [TreeNode.children] using hCinv.1
          | child hc hs' =>
            exact hCinv.2 _ (by simpa [TreeNode.children] using hc) _ hs'
    | some n =>
      obtain ⟨hmem, htitle⟩ := findNode_eq_some hf
      have hninv : nodeInv n := h.2 n hmem n (Subnode.refl n)
      have hchInv : forestInv n.children :=
        ⟨hninv.2.2, fun c hc s hs => h.2 n hmem s (Subnode.child hc hs)⟩
      have hCinv : forestInv (insertParts cm rest (idx + 1) n.children) :=
        ih (idx + 1) n.children hchInv
      have hmodInv : nodeInv (TreeNode.mk n.key n.title n.isFile n.data
          (insertParts cm rest (idx + 1) n.children)) := by
        refine ⟨?_, ?_, ?_⟩
        · simpa [TreeNode.data, TreeNode.isFile] using hninv.1
        · intro hff
          simp only [TreeNode.children]
          cases rest with
          | nil =>
            rw [insertParts_nil]
            exact hninv.2.1 (by simpa [TreeNode.isFile] using hff)
          | cons a b => exact insertParts_ne_nil cm _ _ (by simp)
        · simpa [TreeNode.children] using hCinv.1
      constructor
      · rw [setChildren_map_title]
        exact h.1
      · intro r hr s hs
        rcases mem_setChildren hr with hrf | ⟨m, hmf, hmt, hre⟩
        · exact h.2 r hrf s hs
        · have hmn : m = n :=
            List.inj_on_of_nodup_map h.1 hmf hmem (hmt.trans htitle.symm)
          subst hmn
          subst hre
          cases hs with
          | refl => exact hmodInv
          | child hc hs' =>
            exact hCinv.2 _ (by simpa [TreeNode.children] using hc) _ hs'

/-- The whole build satisfies the forest invariant. -/
theorem forestInv_build (codeMaps : List CodeMap) :
    forestInv (buildTreeData codeMaps) := by
  have key : ∀ (l : List CodeMap) (f : List TreeNode), forestInv f →
      forestInv (l.foldl
        (fun t cm => insertParts cm (splitPath cm.file_path) 0 t) f) := by
    intro l
    induction l with
    | nil => intro f h; exact h
    | cons cm rest ih =>
      intro f h
      exact ih _ (forestInv_insertParts cm (splitPath cm.file_path) 0 f h)
  exact key codeMaps [] ⟨by simp, by simp⟩

/-- `containsParts f parts`: walking `parts` from the roots of `f`
meets an existing node at every segment. -/
def containsParts : List TreeNode → List String → Bool
  | _, [] => true
  | f, part :: rest =>
    match findNode part f with
    | none => false
    | some n => containsParts n.children rest

theorem findNode_append_some {part : String} {f : List TreeNode}
    {n : TreeNode} (g : List TreeNode) (h : findNode part f = some n) :
    findNode part (f ++ g) = some n := by
  induction f with
  | nil => simp [findNode] at h
  | cons m f' ih =>
    by_cases hm : m.title = part
    · rw [findNode, List.find?_cons_of_pos _ (by simpa using hm)] at h
      rw [findNode, List.cons_append, List.find?_cons_of_pos _ (by simpa using hm)]
      exact h
    · rw [findNode, List.find?_cons_of_neg _ (by simpa using hm)] at h
      rw [findNode, List.cons_append, List.find?_cons_of_neg _ (by simpa using hm)]
      exact ih h

theorem findNode_append_none {part : String} {f : List TreeNode}
    (g : List TreeNode) (h : findNode part f = none) :
    findNode part (f ++ g) = findNode part g := by
  induction f with
  | nil => simp
  | cons m f' ih =>
    by_cases hm : m.title = part
    · rw [findNode, List.find?_cons_of_pos _ (by simpa using hm)] at h
      simp at h
    · rw [findNode, List.find?_cons_of_neg _ (by simpa using hm)] at h
      rw [findNode, List.cons_append, List.find?_cons_of_neg _ (by simpa using hm)]
      exact ih h

theorem findNode_setChildren_same {part : String} {f : List TreeNode}
    {n : TreeNode} (cs : List TreeNode) (h : findNode part f = some n) :
    findNode part (setChildren part cs f)
      = some (TreeNode.mk n.key n.title n.isFile n.data cs) := by
  induction f with
  | nil => simp [findNode] at h
  | cons m f' ih =>
    rw [setChildren]
    by_cases hm : m.title = part
    · rw [if_pos hm]
      rw [findNode, List.find?_cons_of_pos _ (by simpa using hm)] at h
      rw [findNode, List.find?_cons_of_pos _ (by simpa [title_mk] using hm)]
      cases h
      rfl
    · rw [if_neg hm]
      rw [findNode, List.find?_cons_of_neg _ (by simpa using hm)] at h
      rw [findNode, List.find?_cons_of_neg _ (by simpa using hm)]
      exact ih h

theorem findNode_setChildren_other {part part' : String} {f : List TreeNode}
    (cs : List TreeNode) (hne : part ≠ part') :
    findNode part (setChildren part' cs f) = findNode part f := by
  induction f with
  | nil => rfl
  | cons m f' ih =>
    rw [setChildren]
    by_cases hm : m.title = part'
    · rw [if_pos hm]
      have hmp : ¬ m.title = part := fun hh => hne (hh ▸ hm)
      rw [findNode, List.find?_cons_of_neg _ (by simpa [title_mk] using hmp),
        findNode, List.find?_cons_of_neg _ (by simpa using hmp)]
    · rw [if_neg hm]
      by_cases hmp : m.title = part
      · rw [findNode, List.find?_cons_of_pos _ (by simpa using hmp),
          findNode, List.find?_cons_of_pos _ (by simpa using hmp)]
      · rw [findNode, List.find?_cons_of_neg _ (by simpa using hmp),
          findNode, List.find?_cons_of_neg _ (by simpa using hmp)]
        exact ih

/-- A record whose walk only meets existing nodes changes nothing: every
`if (!current[part])` test fails and the loop merely descends. -/
theorem insertParts_of_containsParts (cm : CodeMap) :
    ∀ (parts : List String) (idx : Nat) (f : List TreeNode),
      containsParts f parts = true → insertParts cm parts idx f = f := by
  intro parts
  induction parts with
  | nil => intro idx f _; rfl
  | cons part rest ih =>
    intro idx f h
    cases hf : findNode part f with
    | none =>
      simp only [containsParts, hf] at h
      exact absurd h Bool.false_ne_true
    | some n =>
      simp only [containsParts, hf] at h
      simp only [insertParts, hf]
      rw [ih (idx + 1) n.children h]
      have hset : ∀ g : List TreeNode, findNode part g = some n →
          setChildren part n.children g = g := by
        intro g
        induction g with
        | nil => intro hg; rfl
        | cons m g' ihg =>
          intro hg
          rw [setChildren]
          by_cases hm : m.title = part
          · rw [if_pos hm]
            rw [findNode, List.find?_cons_of_pos _ (by simpa using hm)] at hg
            cases hg
            rw [TreeNode.eta]
          · rw [if_neg hm]
            rw [findNode, List.find?_cons_of_neg _ (by simpa using hm)] at hg
            rw [ihg hg]
      exact hset f hf

/-- After a record is inserted, its whole path exists in the forest. -/
theorem containsParts_insertParts (cm : CodeMap) :
    ∀ (parts : List String) (idx : Nat) (f : List TreeNode),
      containsParts (insertParts cm parts idx f) parts = true := by
  intro parts
  induction parts with
  | nil => intro idx f; rfl
  | cons part rest ih =>
    intro idx f
    cases hf : findNode part f with
    | none =>
      simp only [insertParts, hf, containsParts]
      rw [findNode_append_none _ hf]
      have : findNode part [TreeNode.mk (cm.file_path ++ toString idx) part
          rest.isEmpty (if rest.isEmpty then some cm else none)
          (insertParts cm rest (idx + 1) [])] = some (TreeNode.mk
            (cm.file_path ++ toString idx) part rest.isEmpty
            (if rest.isEmpty then some cm else none)
            (insertParts cm rest (idx + 1) [])) := by
        rw [findNode, List.find?_cons_of_pos _ (by simp [title_mk])]
      rw [this]
      exact ih (idx + 1) []
    | some n =>
      simp only [insertParts, hf, containsParts]
      rw [findNode_setChildren_same _ hf]
      simpa [TreeNode.children] using ih (idx + 1) n.children

/-- Inserting one record never removes an existing path. -/
theorem containsParts_mono (cm : CodeMap) :
    ∀ (parts' : List String) (idx : Nat) (f : List TreeNode)
      (parts : List String), containsParts f parts = true →
      containsParts (insertParts cm parts' idx f) parts = true := by
  intro parts'
  induction parts' with
  | nil => intro idx f parts h; exact h
  | cons part' rest' ih =>
    intro idx f parts h
    cases hf : findNode part' f with
    | none =>
      cases parts with
      | nil => rfl
      | cons part rest =>
        cases hp : findNode part f with
        | none =>
          simp only [containsParts, hp] at h
          exact absurd h Bool.false_ne_true
        | some n =>
          simp only [containsParts, hp] at h
          simp only [insertParts, hf, containsParts]
          rw [findNode_append_some _ hp]
          exact h
    | some n =>
      cases parts with
      | nil => rfl
      | cons part rest =>
        cases hp : findNode part f with
        | none =>
          simp only [containsParts, hp] at h
          exact absurd h Bool.false_ne_true
        | some m =>
          simp only [containsParts, hp] at h
          simp only [insertParts, hf, containsParts]
          by_cases hpp : part = part'
          · subst hpp
            have hmn : m = n := by rw [hp] at hf; cases hf; rfl
            subst hmn
            rw [findNode_setChildren_same _ hp]
            simp only [TreeNode.children]
            exact ih (idx + 1) m.children rest h
          · rw [findNode_setChildren_other _ hpp, hp]
            exact h

/-- `containsParts` is preserved by folding any further records in. -/
theorem containsParts_foldl (l : List CodeMap) :
    ∀ (f : List TreeNode) (parts : List String),
      containsParts f parts = true →
      containsParts
        (l.foldl (fun t cm => insertParts cm (splitPath cm.file_path) 0 t) f)
        parts = true := by
  induction l with
  | nil => intro f parts h; exact h
  | cons cm rest ih =>
    intro f parts h
    exact ih _ parts (containsParts_mono cm (splitPath cm.file_path) 0 f parts h)

/-! ## Lemmas about the AgentWorkflow trace semantics -/

theorem foldl_lrStep (l : List AWEvent) (acc : Option (Nat × Nat)) :
    l.foldl lrStep acc = ((l.foldl lrStep none).map some).getD acc := by
  induction l generalizing acc with
  | nil => rfl
  | cons e rest ih =>
    cases e with
    | fetchResolve id req tasks =>
      simp only [List.foldl_cons, lrStep]
      rw [ih (some (req, tasks))]
      cases h : rest.foldl lrStep none <;> simp
    | tick => simpa only [List.foldl_cons, lrStep] using ih acc
    | fetchReject id => simpa only [List.foldl_cons, lrStep] using ih acc
    | cleanup => simpa only [List.foldl_cons, lrStep] using ih acc

theorem AWStep_requirement_of_not_resolve (s : AWFull) (e : AWEvent)
    (h : lrStep none e = none) :
    (AWStep s e).st.requirement = s.st.requirement ∧
    (AWStep s e).st.tasks = s.st.tasks := by
  cases e with
  | fetchResolve id req tasks => simp [lrStep] at h
  | tick =>
    simp only [AWStep]
    split <;> simp [issueFetch]
  | fetchReject id => simp [AWStep]
  | cleanup => simp [AWStep]

theorem foldAW_snapshot (l : List AWEvent) (s : AWFull) :
    (l.foldl AWStep s).st.requirement
        = ((lastResolveData l).map (fun p => some p.1)).getD s.st.requirement ∧
    (l.foldl AWStep s).st.tasks
        = ((lastResolveData l).map (fun p => some p.2)).getD s.st.tasks := by
  induction l generalizing s with
  | nil => simp [lastResolveData]
  | cons e rest ih =>
    have hlrd : lastResolveData (e :: rest)
        = ((rest.foldl lrStep none).map some).getD (lrStep none e) := by
      simpa only [lastResolveData, List.foldl_cons, lrStep] using
        foldl_lrStep rest (lrStep none e)
    rw [List.foldl_cons]
    rcases ih (AWStep s e) with ⟨hreq, htasks⟩
    rw [hreq, htasks, hlrd]
    cases he : lrStep none e with
    | some p =>
      cases e with
      | fetchResolve id req tasks =>
        simp only [lrStep] at he
        cases hrest : rest.foldl lrStep none <;>
          simp [lastResolveData, hrest, AWStep, ← he]
      | tick => simp [lrStep] at he
      | fetchReject id => simp [lrStep] at he
      | cleanup => simp [lrStep] at he
    | none =>
      rcases AWStep_requirement_of_not_resolve s e he with ⟨h1, h2⟩
      cases hrest : rest.foldl lrStep none <;>
        simp [lastResolveData, hrest, h1, h2]

theorem AWStep_active_false {s : AWFull} (h : s.st.intervalActive = false)
    (e : AWEvent) : (AWStep s e).st.intervalActive = false := by
  cases e with
  | tick => simp [AWStep, h]
  | fetchResolve id req tasks => simpa [AWStep] using h
  | fetchReject id => simpa [AWStep] using h
  | cleanup => simp [AWStep]

theorem AWWf_tick_not_mem {s : AWFull} (l : List AWEvent)
    (h : s.st.intervalActive = false) (hwf : AWWf s l = true) :
    AWEvent.tick ∉ l := by
  induction l generalizing s with
  | nil => simp
  | cons e rest ih =>
    simp only [AWWf, Bool.and_eq_true] at hwf
    intro hmem
    rcases List.mem_cons.mp hmem with rfl | hmem
    · rw [h] at hwf
      exact Bool.false_ne_true hwf.1
    · exact ih (AWStep_active_false h e) hwf.2 hmem

theorem AWWf_append (l₁ l₂ : List AWEvent) (s : AWFull) :
    AWWf s (l₁ ++ l₂) = (AWWf s l₁ && AWWf (l₁.foldl AWStep s) l₂) := by
  induction l₁ generalizing s with
  | nil => simp [AWWf]
  | cons e rest ih =>
    simp only [List.cons_append, AWWf, List.append_eq, List.foldl_cons,
      ih (AWStep s e), Bool.and_assoc]

theorem active_unless_cleanup (l : List AWEvent) (s : AWFull)
    (h : s.st.intervalActive = true) (hn : AWEvent.cleanup ∉ l) :
    (l.foldl AWStep s).st.intervalActive = true := by
  induction l generalizing s with
  | nil => exact h
  | cons e rest ih =>
    rw [List.foldl_cons]
    refine ih (AWStep s e) ?_ (fun hm => hn (List.mem_cons_of_mem e hm))
    cases e with
    | tick => simp [AWStep, h, issueFetch]
    | fetchResolve id req tasks => simpa [AWStep] using h
    | fetchReject id => simpa [AWStep] using h
    | cleanup => exact absurd (List.mem_cons_self _ _) hn

/-! ## Lemmas about the CodeMap trace semantics -/

theorem foldCM_gate_false (l : List CMEvent) (s : CMState)
    (ha : s.intervalActive = true) (hn : CMEvent.cleanup ∉ l) :
    (l.foldl (CMStep none) s).fetches = s.fetches ∧
    (l.foldl (CMStep none) s).intervalActive = true ∧
    (l.foldl (CMStep none) s).ticksFired = s.ticksFired + l.length := by
  induction l generalizing s with
  | nil => exact ⟨rfl, ha, rfl⟩
  | cons e rest ih =>
    cases e with
    | tick result =>
      have hn' : CMEvent.cleanup ∉ rest := fun hm => hn (List.mem_cons_of_mem _ hm)
      have hstep : CMStep none s (CMEvent.tick result)
          = { s with ticksFired := s.ticksFired + 1 } := by
        simp [CMStep, cmGate, ha]
      rw [List.foldl_cons, hstep]
      rcases ih { s with ticksFired := s.ticksFired + 1 } ha hn' with ⟨h1, h2, h3⟩
      refine ⟨h1, h2, ?_⟩
      rw [h3]
      simp only [List.length_cons]
      omega
    | cleanup => exact absurd (List.mem_cons_self _ _) hn

/-! ## Claim theorems about the polling state synchronizer -/

/-- C1, counterexample: in the AgentWorkflow loader, with fetch `0`
issued at mount and fetch `1` issued by the first tick, the trace in
which fetch `1` resolves first (bodies `20`/`21`) and the slower fetch
`0` resolves afterwards (bodies `10`/`11`) is feasible, and the
committed snapshot ends as fetch `0`'s data — the stale result is
applied, clobbering the later-issued fetch's snapshot, contradicting
the claim that the snapshot must equal fetch `1`'s data. -/
theorem c1_counterexample :
    wellFormedAW
        [AWEvent.tick, AWEvent.fetchResolve 1 20 21, AWEvent.fetchResolve 0 10 11]
      = true ∧
    (runAW [AWEvent.tick, AWEvent.fetchResolve 1 20 21,
        AWEvent.fetchResolve 0 10 11]).st.requirement = some 10 ∧
    some 10 ≠ some 20 := by
  refine ⟨by decide, by decide, by decide⟩

/-- C1, amended: the AgentWorkflow loader applies results in resolution
order with no sequence fence: after any trace of events, the committed
`requirement`/`tasks` snapshot equals the bodies of the last
`fetchResolve` of the trace (and is still the initial `none` if no fetch
resolved), regardless of the order in which the fetches were issued. -/
theorem c1_thm (events : List AWEvent) :
    (runAW events).st.requirement = (lastResolveData events).map Prod.fst ∧
    (runAW events).st.tasks = (lastResolveData events).map Prod.snd := by
  rcases foldAW_snapshot events AWInit with ⟨h1, h2⟩
  rw [runAW] at *
  rw [h1, h2]
  cases h : lastResolveData events <;> simp [AWInit, issueFetch]

/-- C1 witness: the amended theorem evaluated on a concrete stale-fetch
trace. -/
theorem c1_witness :
    (runAW [AWEvent.tick, AWEvent.fetchResolve 1 20 21,
        AWEvent.fetchResolve 0 10 11]).st.requirement
      = (lastResolveData [AWEvent.tick, AWEvent.fetchResolve 1 20 21,
          AWEvent.fetchResolve 0 10 11]).map Prod.fst :=
  (c1_thm [AWEvent.tick, AWEvent.fetchResolve 1 20 21,
    AWEvent.fetchResolve 0 10 11]).1

/-- C6, counterexample: a CodeMap synchronizer whose first snapshot has
status `completed` (gate false) makes exactly one fetch, but polling
does not self-terminate: after two further interval ticks the ticks have
fired (`ticksFired = 2`) and the interval is still scheduled
(`intervalActive = true`), contradicting "no further ticks are
scheduled". -/
theorem c6_counterexample :
    cmGate (some "completed") = false ∧
    (runCM "completed" [CMEvent.tick "completed", CMEvent.tick "completed"]).fetches
      = 1 ∧
    (runCM "completed" [CMEvent.tick "completed", CMEvent.tick "completed"]).ticksFired
      = 2 ∧
    (runCM "completed" [CMEvent.tick "completed",
        CMEvent.tick "completed"]).intervalActive = true := by
  refine ⟨by decide, by decide, by decide, by decide⟩

/-- C6, amended: a mounted CodeMap synchronizer makes exactly one fetch
(the immediate `loadData()`): the interval callback's gate reads the
closure-captured `project` of the mounting render, which is `null`, so
it is false on every tick and no tick ever fetches — but the interval
remains scheduled and every tick still fires; only the cleanup stops
the ticking. -/
theorem c6_thm (firstResult : String) (events : List CMEvent)
    (h : CMEvent.cleanup ∉ events) :
    (runCM firstResult events).fetches = 1 ∧
    (runCM firstResult events).intervalActive = true ∧
    (runCM firstResult events).ticksFired = events.length := by
  have := foldCM_gate_false events (CMInit firstResult) rfl h
  simpa [runCM, CMInit] using this

/-- C6 witness: the amended theorem evaluated after one gate-false
tick. -/
theorem c6_witness :
    (runCM "completed" [CMEvent.tick "completed"]).fetches = 1 ∧
    (runCM "completed" [CMEvent.tick "completed"]).intervalActive = true ∧
    (runCM "completed" [CMEvent.tick "completed"]).ticksFired
      = [CMEvent.tick "completed"].length :=
  c6_thm "completed" [CMEvent.tick "completed"] (by decide)

/-- C7: a failed fetch does not stop the AgentWorkflow schedule: the
rejection is reported (the `catch` handler runs, incrementing the error
count), the interval flag is untouched, the next feasible tick still
issues a fetch, and the interval can only ever be deactivated by a
`cleanup` (`stop`) event. -/
theorem c7_thm (pre : List AWEvent) (id : Nat)
    (h : wellFormedAW (pre ++ [AWEvent.fetchReject id, AWEvent.tick]) = true) :
    (runAW (pre ++ [AWEvent.fetchReject id])).errors = (runAW pre).errors + 1 ∧
    (runAW (pre ++ [AWEvent.fetchReject id])).st.intervalActive
      = (runAW pre).st.intervalActive ∧
    (runAW (pre ++ [AWEvent.fetchReject id, AWEvent.tick])).st.nextId
      = (runAW (pre ++ [AWEvent.fetchReject id])).st.nextId + 1 ∧
    (∀ events : List AWEvent, AWEvent.cleanup ∉ events →
        (runAW events).st.intervalActive = true) := by
  have hactive : (AWStep (runAW pre) (AWEvent.fetchReject id)).st.intervalActive
      = true := by
    rw [wellFormedAW, AWWf_append, Bool.and_eq_true] at h
    have h2 := h.2
    simp only [AWWf, Bool.and_eq_true] at h2
    exact h2.2.1
  refine ⟨?_, ?_, ?_, ?_⟩
  · simp [runAW, List.foldl_append, AWStep]
  · simp [runAW, List.foldl_append, AWStep]
  · simp only [runAW, List.foldl_append, List.foldl_cons, List.foldl_nil]
    simp only [runAW] at hactive
    simp [AWStep] at hactive
    simp [AWStep, hactive, issueFetch]
  · intro events hn
    exact active_unless_cleanup events AWInit rfl hn

/-- C7 witness: the theorem evaluated on the concrete trace in which the
mount-time fetch `0` fails and the next tick follows. -/
theorem c7_witness :
    (runAW [AWEvent.fetchReject 0]).errors = (runAW []).errors + 1 ∧
    (runAW [AWEvent.fetchReject 0, AWEvent.tick]).st.nextId
      = (runAW [AWEvent.fetchReject 0]).st.nextId + 1 := by
  have h := c7_thm [] 0 (by decide)
  exact ⟨h.1, h.2.2.1⟩

/-- C8, counterexample: with fetch `0` still in flight, running the
effect cleanup (`stop`) and then letting the fetch resolve with bodies
`10`/`11` is a feasible trace, and the resolution is still applied: the
snapshot becomes `some 10` instead of remaining the pre-stop value
`none` — the in-flight result is not discarded. -/
theorem c8_counterexample :
    wellFormedAW [AWEvent.cleanup, AWEvent.fetchResolve 0 10 11] = true ∧
    (runAW [AWEvent.cleanup]).st.requirement = none ∧
    (runAW [AWEvent.cleanup, AWEvent.fetchResolve 0 10 11]).st.requirement
      = some 10 ∧
    (some 10 : Option Nat) ≠ none := by
  refine ⟨by decide, by decide, by decide, by decide⟩

/-- C8, amended: after `stop` (the effect cleanup) no further tick can
fire — a feasible trace contains no tick after the cleanup — but the
result of a fetch that was in flight at the moment of stop is **not**
discarded: when it resolves it is still applied to the snapshot. -/
theorem c8_thm :
    (∀ pre post : List AWEvent,
        wellFormedAW (pre ++ AWEvent.cleanup :: post) = true →
          AWEvent.tick ∉ post) ∧
    (∀ (pre : List AWEvent) (id req tasks : Nat),
        (runAW (pre ++ [AWEvent.cleanup,
            AWEvent.fetchResolve id req tasks])).st.requirement = some req) := by
  constructor
  · intro pre post h
    rw [wellFormedAW, AWWf_append, Bool.and_eq_true] at h
    have h2 := h.2
    simp only [AWWf, Bool.and_eq_true] at h2
    refine AWWf_tick_not_mem post ?_ h2.2
    simp [AWStep]
  · intro pre id req tasks
    simp [runAW, List.foldl_append, AWStep]

/-- C8 witness: the amended theorem evaluated on the concrete
stop-then-resolve trace. -/
theorem c8_witness :
    AWEvent.tick ∉ ([] : List AWEvent) ∧
    (runAW ([] ++ [AWEvent.cleanup,
        AWEvent.fetchResolve 0 10 11])).st.requirement = some 10 :=
  ⟨c8_thm.1 [] [] (by decide), c8_thm.2 [] 0 10 11⟩

/-! ## Claim theorems about the status statistics -/

/-- C4, counterexample: the Dashboard statistics have no "other" bucket.
A single project with the unrecognized status `failed` is counted in
`total` but in none of the status buckets, so the bucket counts sum to
`0` while the collection has `1` record — the sum of bucket counts does
not equal the number of records. -/
theorem c4_counterexample :
    (computeStats [⟨"failed"⟩]).completed + (computeStats [⟨"failed"⟩]).analyzing
        + (computeStats [⟨"failed"⟩]).pending = 0 ∧
    (computeStats [⟨"failed"⟩]).total = 1 ∧
    (0 : Nat) ≠ 1 := by
  refine ⟨by decide, by decide, by decide⟩

/-- C4, amended: the status buckets of `loadProjects` cover exactly the
records whose status is one of `completed`, `analyzing`, `pending`;
records with any other status (such as `failed`) are counted only in
`total`, so the bucket sum is at most — not always equal to — the number
of records. -/
theorem c4_thm (projectsData : List Project) :
    (computeStats projectsData).completed + (computeStats projectsData).analyzing
        + (computeStats projectsData).pending
      = (projectsData.filter (fun p => p.status == "completed"
          || p.status == "analyzing" || p.status == "pending")).length ∧
    (computeStats projectsData).completed + (computeStats projectsData).analyzing
        + (computeStats projectsData).pending
      ≤ (computeStats projectsData).total := by
  have key : ∀ l : List Project,
      (l.filter (fun p => p.status == "completed")).length
          + (l.filter (fun p => p.status == "analyzing")).length
          + (l.filter (fun p => p.status == "pending")).length
        = (l.filter (fun p => p.status == "completed"
            || p.status == "analyzing" || p.status == "pending")).length := by
    intro l
    induction l with
    | nil => rfl
    | cons p rest ih =>
      by_cases h1 : p.status = "completed"
      · have h2 : p.status ≠ "analyzing" := by rw [h1]; decide
        have h3 : p.status ≠ "pending" := by rw [h1]; decide
        simp only [List.filter_cons, h1, h2, h3]
        simp only [beq_iff_eq, h1, h2, h3]
        simp [ih]
        omega
      · by_cases h2 : p.status = "analyzing"
        · have h3 : p.status ≠ "pending" := by rw [h2]; decide
          simp only [List.filter_cons, beq_iff_eq, h1, h2, h3]
          simp [ih]
          omega
        · by_cases h3 : p.status = "pending"
          · simp only [List.filter_cons, beq_iff_eq, h1, h2, h3]
            simp [ih]
            omega
          · simp only [List.filter_cons, beq_iff_eq, h1, h2, h3]
            simp [h1, h2, h3, ih]
  constructor
  · simpa [computeStats] using key projectsData
  · calc (computeStats projectsData).completed
          + (computeStats projectsData).analyzing
          + (computeStats projectsData).pending
        = (projectsData.filter (fun p => p.status == "completed"
            || p.status == "analyzing" || p.status == "pending")).length := by
          simpa [computeStats] using key projectsData
      _ ≤ projectsData.length := List.length_filter_le _ _
      _ = (computeStats projectsData).total := rfl

/-- C4 witness: the amended theorem evaluated on a collection holding
one recognized and one unrecognized status. -/
theorem c4_witness :
    (computeStats [⟨"failed"⟩, ⟨"completed"⟩]).completed
        + (computeStats [⟨"failed"⟩, ⟨"completed"⟩]).analyzing
        + (computeStats [⟨"failed"⟩, ⟨"completed"⟩]).pending
      = ([⟨"failed"⟩, ⟨"completed"⟩].filter
          (fun p : Project => p.status == "completed"
            || p.status == "analyzing" || p.status == "pending")).length :=
  (c4_thm [⟨"failed"⟩, ⟨"completed"⟩]).1

/-! ## Claim theorems about the tree builder -/

/-- C2, counterexample: the builder's leaf/interior resolution is not
order-independent.  With input order `["a", "a/b"]` the root node `a`
keeps its leaf flag and payload (`isFile = true`, `data` present) while
also gaining the child `b`, whereas order `["a/b", "a"]` yields a root
with `isFile = false` and no payload — the two root-level summaries
differ, contradicting both "`a` is an interior node" and "the result is
identical regardless of arrival order" (and no conflict is reported:
the builder has no error output at all). -/
theorem c2_counterexample :
    ((buildTreeData [⟨"a", 2⟩, ⟨"a/b", 1⟩]).map
        (fun n => (n.isFile, n.data.isSome))) = [(true, true)] ∧
    ((buildTreeData [⟨"a/b", 1⟩, ⟨"a", 2⟩]).map
        (fun n => (n.isFile, n.data.isSome))) = [(false, false)] ∧
    [(true, true)] ≠ [(false, false)] := by
  refine ⟨by decide, by decide, by decide⟩

/-- C2, amended: on `["a/b", "a"]` the node `a` is created by the longer
path as a non-leaf (`isFile = false`, no payload) with single child `b`,
and the later leaf record for `a` is silently dropped (no conflict is
reported — the builder has no error channel); on the reverse order
`["a", "a/b"]` the node `a` keeps `isFile = true` and its payload while
gaining child `b`: the outcome depends on arrival order. -/
theorem c2_thm :
    buildTreeData [⟨"a/b", 1⟩, ⟨"a", 2⟩]
        = [.mk "a/b0" "a" false none
            [.mk "a/b1" "b" true (some ⟨"a/b", 1⟩) []]] ∧
    buildTreeData [⟨"a", 2⟩, ⟨"a/b", 1⟩]
        = [.mk "a0" "a" true (some ⟨"a", 2⟩)
            [.mk "a/b1" "b" true (some ⟨"a/b", 1⟩) []]] :=
  ⟨rfl, rfl⟩

/-- C3, counterexample: a record whose path has consecutive separators
is neither reported nor skipped: `"a//b"` produces under `a` exactly one
child node whose title is the empty string — the builder silently
creates a blank-named node. -/
theorem c3_counterexample :
    ((buildTreeData [⟨"a//b", 1⟩]).map
      (fun n => n.children.map TreeNode.title)) = [[""]] := by
  decide

/-- C3, amended: records with an empty path or an empty segment are
processed like any other record — `split('/')` yields empty-string
segments and the builder creates nodes titled `""` for them; nothing is
reported, the record is not skipped, and the empty path itself becomes
a leaf titled `""` carrying the payload. -/
theorem c3_thm :
    buildTreeData [⟨"a//b", 1⟩]
        = [.mk "a//b0" "a" false none
            [.mk "a//b1" "" false none
              [.mk "a//b2" "b" true (some ⟨"a//b", 1⟩) []]]] ∧
    buildTreeData [⟨"", 3⟩] = [.mk "0" "" true (some ⟨"", 3⟩) []] :=
  ⟨rfl, rfl⟩

/-- C5, counterexample: a node can be a leaf and an interior node at
once.  Building `["a", "a/b"]` leaves the root `a` with
`isFile = true`, a stored payload, and one child — it simultaneously
carries a payload and has children, contradicting the claimed
either/or invariant. -/
theorem c5_counterexample :
    ((buildTreeData [⟨"a", 5⟩, ⟨"a/b", 6⟩]).map
      (fun n => (n.isFile, n.data.isSome, n.children.length)))
      = [(true, true, 1)] := by
  decide

/-- C5, amended: every node of every built forest stores a payload iff
its leaf flag is set, and every node created as a non-leaf has at least
one child; but the converse separation fails — a leaf-flagged node may
additionally have children (see the counterexample), so "leaf" and
"has children" are not mutually exclusive. -/
theorem c5_thm (codeMaps : List CodeMap) :
    ∀ r ∈ buildTreeData codeMaps, ∀ s, Subnode s r →
      s.data.isSome = s.isFile ∧ (s.isFile = false → s.children ≠ []) :=
  fun r hr s hs =>
    ⟨((forestInv_build codeMaps).2 r hr s hs).1,
     ((forestInv_build codeMaps).2 r hr s hs).2.1⟩

/-- C5 witness: the amended invariant evaluated at the root of a
concrete one-record build. -/
theorem c5_witness :
    (TreeNode.mk "x/y0" "x" false none
        [TreeNode.mk "x/y1" "y" true (some ⟨"x/y", 7⟩) []]).data.isSome
      = (TreeNode.mk "x/y0" "x" false none
          [TreeNode.mk "x/y1" "y" true (some ⟨"x/y", 7⟩) []]).isFile := by
  have h := c5_thm [⟨"x/y", 7⟩]
    (TreeNode.mk "x/y0" "x" false none
      [TreeNode.mk "x/y1" "y" true (some ⟨"x/y", 7⟩) []])
    (by exact List.mem_singleton.mpr rfl) _ (Subnode.refl _)
  exact h.1

/-- C9: the builder is a pure function — building twice from the same
collection yields the same forest — and children are keyed by segment
title, so titles never repeat at the top level or among the children of
any node: records sharing a directory prefix merge into the one node of
that title instead of duplicating it. -/
theorem c9_thm (codeMaps : List CodeMap) :
    buildTreeData codeMaps = buildTreeData codeMaps ∧
    ((buildTreeData codeMaps).map TreeNode.title).Nodup ∧
    ∀ r ∈ buildTreeData codeMaps, ∀ s, Subnode s r →
      (s.children.map TreeNode.title).Nodup :=
  ⟨rfl, (forestInv_build codeMaps).1,
   fun r hr s hs => ((forestInv_build codeMaps).2 r hr s hs).2.2⟩

/-- C9 witness: key distinctness evaluated on a two-record build sharing
the directory prefix `p`. -/
theorem c9_witness :
    ((buildTreeData [⟨"p/q", 3⟩, ⟨"p/r", 4⟩]).map TreeNode.title).Nodup :=
  (c9_thm [⟨"p/q", 3⟩, ⟨"p/r", 4⟩]).2.1

/-- C10: a later record with a path identical to an earlier record's
changes nothing — every node along the path already exists, so each
`if (!current[part])` test fails and the walk only descends: the whole
build equals the build without the duplicate, keeping the first
record's node, payload, leaf flag and key, and creating no node. -/
theorem c10_thm (l₁ l₂ l₃ : List CodeMap) (r r' : CodeMap)
    (h : r.file_path = r'.file_path) :
    buildTreeData (l₁ ++ r' :: (l₂ ++ r :: l₃))
      = buildTreeData (l₁ ++ r' :: (l₂ ++ l₃)) := by
  simp only [buildTreeData, List.foldl_append, List.foldl_cons]
  congr 1
  apply insertParts_of_containsParts
  rw [h]
  apply containsParts_foldl
  apply containsParts_insertParts

/-- C10 witness: a concrete duplicated path; the second record leaves
the one-record build unchanged. -/
theorem c10_witness :
    buildTreeData [⟨"d/e", 4⟩, ⟨"d/e", 5⟩] = buildTreeData [⟨"d/e", 4⟩] :=
  c10_thm [] [] [] ⟨"d/e", 5⟩ ⟨"d/e", 4⟩ rfl

end AiCodeAgent
